import Mathlib

/-!
Shallow embedding of `src/te_toolbox/binning/statistical.py`: the adaptive
binning selection subsystem (cost functions `knuth_cost`, `shimazaki_cost`,
`aic_cost`, `bic_cost`, the generic search `optimize_bins`, and the rule
wrappers `knuth_bins`, `shimazaki_bins`, `aic_bins`, `bic_bins`).

Floating-point values are modelled by `Flt`: rationals extended with the
three IEEE special values NaN, +inf and -inf, with IEEE comparison and
arithmetic on the special values (rational arithmetic stands in for exact
double arithmetic).  The transcendental functions `np.log` and
`math.lgamma` are abstracted by parameters `logQ lgQ : ℚ → ℚ` giving their
values on the arguments where they are finite; the special-value and
error behavior (log of 0 or of a negative number, the poles of lgamma at
nonpositive integers, `math.lgamma` applied to a numpy array) is modelled
explicitly.  Python code that can raise is embedded with result type
`Option _`, `none` standing for a raised exception.
-/

/-- IEEE-style scalar: NaN, +inf, -inf, or a finite value (as a rational). -/
inductive Flt where
  | nan : Flt
  | inf : Flt
  | neginf : Flt
  | fin : ℚ → Flt
deriving DecidableEq, Repr

/-- IEEE `<` comparison: any comparison with NaN is false. -/
def Flt.lt : Flt → Flt → Bool
  | .nan, _ => false
  | _, .nan => false
  | .inf, _ => false
  | .neginf, .neginf => false
  | .neginf, _ => true
  | .fin _, .inf => true
  | .fin _, .neginf => false
  | .fin a, .fin b => decide (a < b)

/-- IEEE negation. -/
def Flt.neg : Flt → Flt
  | .nan => .nan
  | .inf => .neginf
  | .neginf => .inf
  | .fin a => .fin (-a)

/-- IEEE addition: NaN propagates, inf + (-inf) = NaN. -/
def Flt.add : Flt → Flt → Flt
  | .nan, _ => .nan
  | _, .nan => .nan
  | .inf, .neginf => .nan
  | .neginf, .inf => .nan
  | .inf, _ => .inf
  | _, .inf => .inf
  | .neginf, _ => .neginf
  | _, .neginf => .neginf
  | .fin a, .fin b => .fin (a + b)

/-- IEEE subtraction, as addition of the negation. -/
def Flt.sub (a b : Flt) : Flt := a.add b.neg

/-- IEEE multiplication: NaN propagates, 0 * (±inf) = NaN. -/
def Flt.mul : Flt → Flt → Flt
  | .nan, _ => .nan
  | _, .nan => .nan
  | .fin a, .fin b => .fin (a * b)
  | .fin a, .inf => if a = 0 then .nan else if 0 < a then .inf else .neginf
  | .fin a, .neginf => if a = 0 then .nan else if 0 < a then .neginf else .inf
  | .inf, .fin b => if b = 0 then .nan else if 0 < b then .inf else .neginf
  | .neginf, .fin b => if b = 0 then .nan else if 0 < b then .neginf else .inf
  | .inf, .inf => .inf
  | .inf, .neginf => .neginf
  | .neginf, .inf => .neginf
  | .neginf, .neginf => .inf

/-- IEEE division (all zeros are +0 here; ℚ has no signed zero, and every
division by zero in the embedded code has a +0 divisor): x/0 is ±inf by the
sign of x, 0/0 and inf/inf are NaN. -/
def Flt.div : Flt → Flt → Flt
  | .nan, _ => .nan
  | _, .nan => .nan
  | .fin a, .fin b =>
      if b = 0 then (if a = 0 then .nan else if 0 < a then .inf else .neginf)
      else .fin (a / b)
  | .fin _, .inf => .fin 0
  | .fin _, .neginf => .fin 0
  | .inf, .fin b => if 0 ≤ b then .inf else .neginf
  | .neginf, .fin b => if 0 ≤ b then .neginf else .inf
  | .inf, _ => .nan
  | .neginf, _ => .nan

/-- Model of `np.log` on scalars: log of a negative number or of NaN is NaN
(with a runtime warning, not an exception), log 0 = -inf, log inf = inf;
on positive finite arguments the abstract `logQ` gives the value. -/
def npLog (logQ : ℚ → ℚ) : Flt → Flt
  | .nan => .nan
  | .inf => .inf
  | .neginf => .nan
  | .fin q => if q < 0 then .nan else if q = 0 then .neginf else .fin (logQ q)

/-- Model of `np.sum` over an array of floats (0.0 on the empty array). -/
def fltSum (l : List Flt) : Flt := l.foldr Flt.add (Flt.fin 0)

/-- Model of `np.mean` over an integer histogram: NaN on the empty array
(numpy warns and returns NaN), otherwise the exact rational mean. -/
def npMean (hist : List ℕ) : Flt :=
  if hist.length = 0 then Flt.nan
  else Flt.fin ((hist.sum : ℚ) / (hist.length : ℚ))

/-- Model of `np.var` (population variance, ddof = 0): NaN on the empty
array, otherwise the exact rational variance. -/
def npVar (hist : List ℕ) : Flt :=
  if hist.length = 0 then Flt.nan
  else Flt.fin
    ((hist.map (fun c : ℕ => ((c : ℚ) - (hist.sum : ℚ) / (hist.length : ℚ)) ^ 2)).sum
      / (hist.length : ℚ))

/-- Model of `math.lgamma` on a scalar: raises ValueError (`none`) at the
poles of the Gamma function (nonpositive integers), otherwise finite with
value given by the abstract `lgQ`. -/
def mathLgamma (lgQ : ℚ → ℚ) (q : ℚ) : Option ℚ :=
  if q ≤ 0 ∧ q.den = 1 then none else some (lgQ q)

/-- Model of `math.lgamma` applied to a numpy ARRAY (as `knuth_cost` does):
`math.lgamma` converts its argument with `float(...)`, which succeeds only
for size-1 arrays and raises TypeError (`none`) for any other size. -/
def mathLgammaArr (lgQ : ℚ → ℚ) : List ℚ → Option ℚ
  | [x] => mathLgamma lgQ x
  | _ => none

/-- Embedding of `knuth_cost(hist, bins)`:
`n*np.log(m) + loggamma(m/2) - loggamma(n + m/2) - m*loggamma(0.5)
 + np.sum(loggamma(hist + 0.5))`
with `n = np.sum(hist)`, `m = len(hist)` and `loggamma = math.lgamma`,
evaluated left to right; the final `loggamma` receives the numpy array
`hist + 0.5`.  `bins` is unused, as in the source. -/
def knuthCost (logQ lgQ : ℚ → ℚ) (hist : List ℕ) (bins : List ℚ) : Option Flt :=
  let n : ℕ := hist.sum
  let m : ℕ := hist.length
  let t1 : Flt := (Flt.fin (n : ℚ)).mul (npLog logQ (Flt.fin (m : ℚ)))
  (mathLgamma lgQ ((m : ℚ) / 2)).bind fun g1 =>
  (mathLgamma lgQ ((n : ℚ) + (m : ℚ) / 2)).bind fun g2 =>
  (mathLgamma lgQ (1 / 2)).bind fun g3 =>
  (mathLgammaArr lgQ (hist.map (fun c : ℕ => (c : ℚ) + 1 / 2))).bind fun s =>
  some ((((t1.add (Flt.fin g1)).sub (Flt.fin g2)).sub
    ((Flt.fin (m : ℚ)).mul (Flt.fin g3))).add (Flt.fin s))

/-- Embedding of `shimazaki_cost(hist, bins)`:
`(2*mean - var) / (h*n)**2` with `n = np.sum(hist)`,
`h = bins[1] - bins[0]` (IndexError, i.e. `none`, on short `bins`),
`mean = np.mean(hist)`, `var = np.var(hist)`. -/
def shimazakiCost (hist : List ℕ) (bins : List ℚ) : Option Flt :=
  let n : ℕ := hist.sum
  (bins.get? 1).bind fun b1 =>
  (bins.get? 0).bind fun b0 =>
  let h : Flt := Flt.fin (b1 - b0)
  let hn : Flt := h.mul (Flt.fin (n : ℚ))
  some ((((Flt.fin 2).mul (npMean hist)).sub (npVar hist)).div (hn.mul hn))

/-- Embedding of `aic_cost(hist, bins)`:
`m + n*np.log(n) + n*np.log(h) - np.sum(nonzero_hist*np.log(nonzero_hist))`
with `n = np.sum(hist)`, `h = bins[1] - bins[0]`, `m = len(hist)`,
`nonzero_hist = hist[hist > 0]`; addition associates left to right. -/
def aicCost (logQ : ℚ → ℚ) (hist : List ℕ) (bins : List ℚ) : Option Flt :=
  let n : ℕ := hist.sum
  (bins.get? 1).bind fun b1 =>
  (bins.get? 0).bind fun b0 =>
  let h : ℚ := b1 - b0
  let m : ℕ := hist.length
  let nonzero : List ℕ := hist.filter (fun c => decide (0 < c))
  let sumTerm : Flt :=
    fltSum (nonzero.map (fun c : ℕ => (Flt.fin (c : ℚ)).mul (npLog logQ (Flt.fin (c : ℚ)))))
  some ((((Flt.fin (m : ℚ)).add
      ((Flt.fin (n : ℚ)).mul (npLog logQ (Flt.fin (n : ℚ))))).add
      ((Flt.fin (n : ℚ)).mul (npLog logQ (Flt.fin h)))).sub sumTerm)

/-- Embedding of `bic_cost(hist, bins)`:
`np.log(n)/2*m + n*np.log(n) + n*np.log(h)
 - np.sum(nonzero_hist*np.log(nonzero_hist))`, same conventions as
`aicCost`; the first term associates as `((np.log n)/2)*m`. -/
def bicCost (logQ : ℚ → ℚ) (hist : List ℕ) (bins : List ℚ) : Option Flt :=
  let n : ℕ := hist.sum
  (bins.get? 1).bind fun b1 =>
  (bins.get? 0).bind fun b0 =>
  let h : ℚ := b1 - b0
  let m : ℕ := hist.length
  let nonzero : List ℕ := hist.filter (fun c => decide (0 < c))
  let sumTerm : Flt :=
    fltSum (nonzero.map (fun c : ℕ => (Flt.fin (c : ℚ)).mul (npLog logQ (Flt.fin (c : ℚ)))))
  some ((((((npLog logQ (Flt.fin (n : ℚ))).div (Flt.fin 2)).mul (Flt.fin (m : ℚ))).add
      ((Flt.fin (n : ℚ)).mul (npLog logQ (Flt.fin (n : ℚ))))).add
      ((Flt.fin (n : ℚ)).mul (npLog logQ (Flt.fin h)))).sub sumTerm)

/-- Embedding of `n_min = max(2, int(np.sqrt(n) * 0.1))`: truncation of the
exact real value, using floor(sqrt(n)/10) = floor(floor(sqrt(n))/10). -/
def nMin (n : ℕ) : ℕ := max 2 (Nat.sqrt n / 10)

/-- Embedding of `n_max = int(np.sqrt(n) * 10)`: truncation of the exact
real value, using floor(10*sqrt(n)) = floor(sqrt(100*n)). -/
def nMax (n : ℕ) : ℕ := Nat.sqrt (100 * n)

/-- Search state of `optimize_bins` (spec section 4.2): best cost seen, the
`last_cost` variable, the bin count achieving the best cost, the
consecutive-worse counter, and whether the scan exited early via `break`
(the end-of-range warning is emitted exactly when `stoppedEarly = false`,
by the for/else construct). -/
structure SearchState where
  bestCost : Flt
  lastCost : Flt
  bestN : ℕ
  worseCount : ℕ
  stoppedEarly : Bool
deriving DecidableEq, Repr

/-- The comparison `(minimize and cost < x) or (not minimize and cost > x)`
from the source, with IEEE `<`. -/
def better (minimize : Bool) (cost x : Flt) : Bool :=
  (minimize && Flt.lt cost x) || (!minimize && Flt.lt x cost)

/-- One iteration of the scan loop body of `optimize_bins` on state `st`
with the candidate's `cost` at bin count `nBins`; returns the new state and
whether the `break` of the patience check fires.  Faithful to the source:
`lastCost` is NEVER assigned (the source has no `last_cost = cost`
statement), so it retains its initial value throughout the scan. -/
def optStep (minimize : Bool) (patience : ℕ) (st : SearchState) (cost : Flt)
    (nBins : ℕ) : SearchState × Bool :=
  if better minimize cost st.bestCost then
    ({ st with bestCost := cost, bestN := nBins, worseCount := 0 }, false)
  else if better minimize cost st.lastCost then
    ({ st with worseCount := 0 }, false)
  else
    ({ st with worseCount := st.worseCount + 1 },
      decide (patience ≤ st.worseCount + 1))

/-- The scan loop of `optimize_bins` over the list of candidate bin counts;
`cost k` is the evaluation of the cost function at candidate `k` (`none`
models a raised exception, which propagates out of the loop). -/
def optLoop (cost : ℕ → Option Flt) (minimize : Bool) (patience : ℕ) :
    List ℕ → SearchState → Option SearchState
  | [], st => some st
  | k :: ks, st =>
    (cost k).bind fun c =>
      let sb := optStep minimize patience st c k
      if sb.2 then some { sb.1 with stoppedEarly := true }
      else optLoop cost minimize patience ks sb.1

/-- Initial search state: `best_cost = last_cost = ±inf`, `best_n = n_min`,
`worse_count = 0`. -/
def initState (minimize : Bool) (n : ℕ) : SearchState :=
  { bestCost := if minimize then Flt.inf else Flt.neginf
    lastCost := if minimize then Flt.inf else Flt.neginf
    bestN := nMin n
    worseCount := 0
    stoppedEarly := false }

/-- Embedding of `np.linspace(a, b, k + 1)`: the `k + 1` equally spaced
values from `a` to `b` (exact rational arithmetic). -/
def linspace (a b : ℚ) (k : ℕ) : List ℚ :=
  (List.range (k + 1)).map (fun i : ℕ => a + (i : ℚ) * ((b - a) / (k : ℚ)))

/-- Embedding of `np.histogram(data, bins)` for monotone non-decreasing
`bins`: bin `i` counts the data in `[bins[i], bins[i+1])`, except that the
last bin also includes its upper boundary. -/
def npHistogram (data : List ℚ) (bins : List ℚ) : List ℕ :=
  let m := bins.length - 1
  (List.range m).map fun i =>
    if i + 1 = m then
      data.countP (fun x => decide (bins.getD i 0 ≤ x) && decide (x ≤ bins.getD (i + 1) 0))
    else
      data.countP (fun x => decide (bins.getD i 0 ≤ x) && decide (x < bins.getD (i + 1) 0))

/-- The body of one candidate evaluation in `optimize_bins`: build the
equal-width bins over `[np.min(data), np.max(data)]` (ValueError, i.e.
`none`, on empty data), histogram the data, and call the cost function. -/
def costAt (data : List ℚ) (cF : List ℕ → List ℚ → Option Flt) (k : ℕ) :
    Option Flt :=
  (data.min?).bind fun a =>
  (data.max?).bind fun b =>
  let bins := linspace a b k
  cF (npHistogram data bins) bins

/-- The full scan of `optimize_bins`: loop over `range(n_min, n_max)` from
the initial state, returning the final search state. -/
def optimizeRun (data : List ℚ) (cF : List ℕ → List ℚ → Option Flt)
    (minimize : Bool) (patience : ℕ) : Option SearchState :=
  optLoop (costAt data cF) minimize patience
    (List.range' (nMin data.length) (nMax data.length - nMin data.length))
    (initState minimize data.length)

/-- Embedding of `optimize_bins(data, cost_function, minimize, patience)`:
run the scan, then return `np.linspace(np.min(data), np.max(data),
best_n + 1)`; `none` models a propagated exception (from the cost function
or from min/max of an empty array). -/
def optimize_bins (data : List ℚ) (cF : List ℕ → List ℚ → Option Flt)
    (minimize : Bool) (patience : ℕ) : Option (List ℚ) :=
  (optimizeRun data cF minimize patience).bind fun st =>
  (data.min?).bind fun a =>
  (data.max?).bind fun b =>
  some (linspace a b st.bestN)

/-- Embedding of `knuth_bins(data)`. -/
def knuth_bins (logQ lgQ : ℚ → ℚ) (data : List ℚ) : Option (List ℚ) :=
  optimize_bins data (knuthCost logQ lgQ) false 10

/-- Embedding of `shimazaki_bins(data)`. -/
def shimazaki_bins (data : List ℚ) : Option (List ℚ) :=
  optimize_bins data shimazakiCost true 10

/-- Embedding of `aic_bins(data)`. -/
def aic_bins (logQ : ℚ → ℚ) (data : List ℚ) : Option (List ℚ) :=
  optimize_bins data (aicCost logQ) true 10

/-- Embedding of `bic_bins(data)`. -/
def bic_bins (logQ : ℚ → ℚ) (data : List ℚ) : Option (List ℚ) :=
  optimize_bins data (bicCost logQ) true 10

/-- A concrete stand-in for the abstract log and lgamma value functions,
used in concrete evaluations. -/
def constZero : ℚ → ℚ := fun _ => 0

/-- Spec section 4.2 step g, written from the spec's words for comparison
with the source: the loop body as in `optStep`, followed by
`last_cost = cost`. -/
def optStepSpecG (minimize : Bool) (patience : ℕ) (st : SearchState)
    (cost : Flt) (nBins : ℕ) : SearchState × Bool :=
  let sb := optStep minimize patience st cost nBins
  ({ sb.1 with lastCost := cost }, sb.2)

/-- The scan loop as described by the spec (steps a-g including step g's
`last_cost = cost`), for comparison with `optLoop`. -/
def optLoopSpecG (cost : ℕ → Option Flt) (minimize : Bool) (patience : ℕ) :
    List ℕ → SearchState → Option SearchState
  | [], st => some st
  | k :: ks, st =>
    (cost k).bind fun c =>
      let sb := optStepSpecG minimize patience st c k
      if sb.2 then some { sb.1 with stoppedEarly := true }
      else optLoopSpecG cost minimize patience ks sb.1

/-- The optimizer as described by the spec (with step g), for comparison
with `optimize_bins`. -/
def optimize_bins_specG (data : List ℚ) (cF : List ℕ → List ℚ → Option Flt)
    (minimize : Bool) (patience : ℕ) : Option (List ℚ) :=
  (optLoopSpecG (costAt data cF) minimize patience
      (List.range' (nMin data.length) (nMax data.length - nMin data.length))
      (initState minimize data.length)).bind fun st =>
  (data.min?).bind fun a =>
  (data.max?).bind fun b =>
  some (linspace a b st.bestN)

/-- The summation `sum over bins with hist_i > 0 of hist_i * ln(hist_i)`
from the spec's AIC/BIC formulas, as an exact rational (with the abstract
log value function `logQ`). -/
def nzLogSum (logQ : ℚ → ℚ) (hist : List ℕ) : ℚ :=
  hist.foldr (fun c acc => (if 0 < c then (c : ℚ) * logQ (c : ℚ) else 0) + acc) 0

/-- The spec's AIC formula `m + n*ln(n) + n*ln(h) - Σ_i hist_i*ln(hist_i)`
(sum over nonzero bins), written from the spec's words. -/
def aicFormula (logQ : ℚ → ℚ) (hist : List ℕ) (h : ℚ) : ℚ :=
  (hist.length : ℚ) + (hist.sum : ℚ) * logQ (hist.sum : ℚ)
    + (hist.sum : ℚ) * logQ h - nzLogSum logQ hist

/-- The spec's BIC formula: the AIC log-likelihood term with penalty
`(ln(n)/2)*m` in place of `m`, written from the spec's words. -/
def bicFormula (logQ : ℚ → ℚ) (hist : List ℕ) (h : ℚ) : ℚ :=
  logQ (hist.sum : ℚ) / 2 * (hist.length : ℚ) + (hist.sum : ℚ) * logQ (hist.sum : ℚ)
    + (hist.sum : ℚ) * logQ h - nzLogSum logQ hist

/-- The concrete cost function of the `last_cost` divergence scenario: cost
3 at bin count 2, cost 5 at bin count 3, cost 1 from bin count 4 on (the
cost function sees `k + 1` edges at bin count `k`). -/
def c1CostFn : List ℕ → List ℚ → Option Flt := fun _ bins =>
  some (Flt.fin (if bins.length ≤ 3 then 3 else if bins.length = 4 then 5 else 1))

theorem Flt.lt_nan_left (x : Flt) : Flt.lt Flt.nan x = false := by cases x <;> rfl

theorem Flt.lt_nan_right (x : Flt) : Flt.lt x Flt.nan = false := by cases x <;> rfl

theorem better_nan (minimize : Bool) (x : Flt) : better minimize Flt.nan x = false := by
  cases minimize <;> simp [better, Flt.lt_nan_left, Flt.lt_nan_right]

/-- The loop body never writes to `lastCost` (the source has no
`last_cost = cost` assignment). -/
theorem optStep_lastCost (minimize : Bool) (patience : ℕ) (st : SearchState)
    (cost : Flt) (k : ℕ) :
    (optStep minimize patience st cost k).1.lastCost = st.lastCost := by
  unfold optStep
  split
  · rfl
  · split <;> rfl

theorem optStep_bestN (minimize : Bool) (patience : ℕ) (st : SearchState)
    (cost : Flt) (k : ℕ) :
    (optStep minimize patience st cost k).1.bestN = k ∨
      (optStep minimize patience st cost k).1.bestN = st.bestN := by
  unfold optStep
  split
  · exact Or.inl rfl
  · split <;> exact Or.inr rfl

theorem optStep_stoppedEarly (minimize : Bool) (patience : ℕ) (st : SearchState)
    (cost : Flt) (k : ℕ) :
    (optStep minimize patience st cost k).1.stoppedEarly = st.stoppedEarly := by
  unfold optStep
  split
  · rfl
  · split <;> rfl

/-- On a finite cost the loop body never increments `worseCount` and never
breaks: if the cost does not beat `bestCost`, the second comparison is
against `lastCost`, which is stuck at its initial infinity (of the sign
that every finite cost beats). -/
theorem optStep_finite (minimize : Bool) (patience : ℕ) (st : SearchState)
    (q : ℚ) (k : ℕ)
    (hl : st.lastCost = (if minimize then Flt.inf else Flt.neginf)) :
    (optStep minimize patience st (Flt.fin q) k).2 = false ∧
      (optStep minimize patience st (Flt.fin q) k).1.worseCount = 0 := by
  unfold optStep
  split
  · exact ⟨rfl, rfl⟩
  · rename_i hbet
    have hcond : better minimize (Flt.fin q) st.lastCost = true := by
      cases minimize <;> simp_all [better, Flt.lt]
    rw [if_pos hcond]
    exact ⟨rfl, rfl⟩

/-- Finite costs throughout the scan leave the early-stop machinery inert:
the loop completes with `worseCount = 0` and no early stop. -/
theorem optLoop_all_finite (cost : ℕ → Option Flt) (minimize : Bool) (patience : ℕ) :
    ∀ (ks : List ℕ) (st : SearchState),
      st.lastCost = (if minimize then Flt.inf else Flt.neginf) →
      st.worseCount = 0 → st.stoppedEarly = false →
      (∀ k ∈ ks, ∃ q, cost k = some (Flt.fin q)) →
      ∃ st', optLoop cost minimize patience ks st = some st' ∧
        st'.stoppedEarly = false ∧ st'.worseCount = 0 := by
  intro ks
  induction ks with
  | nil => exact fun st h1 h2 h3 _ => ⟨st, rfl, h3, h2⟩
  | cons k ks ih =>
    intro st h1 h2 h3 hf
    obtain ⟨q, hq⟩ := hf k (List.mem_cons_self k ks)
    have hstep := optStep_finite minimize patience st q k h1
    have hlast := optStep_lastCost minimize patience st (Flt.fin q) k
    have hstop := optStep_stoppedEarly minimize patience st (Flt.fin q) k
    obtain ⟨st', hrun, hse, hwc⟩ :=
      ih (optStep minimize patience st (Flt.fin q) k).1
        (hlast.trans h1) hstep.2 (hstop.trans h3)
        (fun j hj => hf j (List.mem_cons_of_mem k hj))
    refine ⟨st', ?_, hse, hwc⟩
    rw [optLoop, hq, Option.some_bind]
    simpa [hstep.1] using hrun

/-- Any property of the best bin count that holds of the initial value and
of every candidate is preserved by the scan. -/
theorem optLoop_bestN_pred (cost : ℕ → Option Flt) (minimize : Bool)
    (patience : ℕ) (P : ℕ → Prop) :
    ∀ (ks : List ℕ) (st st' : SearchState), (∀ k ∈ ks, P k) → P st.bestN →
      optLoop cost minimize patience ks st = some st' → P st'.bestN := by
  intro ks
  induction ks with
  | nil =>
    intro st st' _ hst h
    obtain rfl : st = st' := by simpa [optLoop] using h
    exact hst
  | cons k ks ih =>
    intro st st' hks hst h
    rw [optLoop] at h
    cases hc : cost k with
    | none => rw [hc] at h; simp at h
    | some c =>
      rw [hc, Option.some_bind] at h
      have hbn := optStep_bestN minimize patience st c k
      have hP : P (optStep minimize patience st c k).1.bestN := by
        rcases hbn with he | he <;> rw [he]
        · exact hks k (List.mem_cons_self k ks)
        · exact hst
      by_cases hb : (optStep minimize patience st c k).2 = true
      · rw [if_pos hb] at h
        obtain rfl : { (optStep minimize patience st c k).1 with stoppedEarly := true } = st' := by
          simpa using h
        exact hP
      · rw [if_neg hb] at h
        exact ih _ st' (fun j hj => hks j (List.mem_cons_of_mem k hj)) hP h

theorem linspace_length (a b : ℚ) (k : ℕ) : (linspace a b k).length = k + 1 := by
  simp [linspace]

theorem linspace_getD (a b : ℚ) (k i : ℕ) (hi : i < k + 1) :
    (linspace a b k).getD i 0 = a + (i : ℚ) * ((b - a) / (k : ℚ)) := by
  simp [linspace, List.getD, List.getElem?_map, List.getElem?_range hi]

theorem linspace_sorted (a b : ℚ) (k : ℕ) (hab : a < b) (hk : 1 ≤ k) :
    List.Pairwise (· < ·) (linspace a b k) := by
  have hs : 0 < (b - a) / (k : ℚ) := by
    apply div_pos (by linarith)
    exact_mod_cast hk
  refine List.Pairwise.map _ ?_ (List.pairwise_lt_range (k + 1))
  intro i j hij
  have : (i : ℚ) < (j : ℚ) := by exact_mod_cast hij
  nlinarith

theorem linspace_head (a b : ℚ) (k : ℕ) : (linspace a b k).head? = some a := by
  rw [linspace, List.range_succ_eq_map]
  simp

theorem linspace_last (a b : ℚ) (k : ℕ) (hk : 1 ≤ k) :
    (linspace a b k).getLast? = some b := by
  rw [linspace, List.range_succ, List.map_append]
  have hkq : (k : ℚ) ≠ 0 := by
    have : k ≠ 0 := by omega
    exact_mod_cast this
  rw [List.map_singleton, List.getLast?_concat]
  congr 1
  field_simp

theorem optimize_bins_extract (data : List ℚ) (cF : List ℕ → List ℚ → Option Flt)
    (minimize : Bool) (patience : ℕ) (edges : List ℚ) (a b : ℚ)
    (hmin : data.min? = some a) (hmax : data.max? = some b)
    (h : optimize_bins data cF minimize patience = some edges) :
    ∃ st, optimizeRun data cF minimize patience = some st ∧
      edges = linspace a b st.bestN := by
  rw [optimize_bins, hmin, hmax] at h
  cases hr : optimizeRun data cF minimize patience with
  | none => rw [hr] at h; simp at h
  | some st =>
    rw [hr] at h
    simp only [Option.some_bind, Option.some.injEq] at h
    exact ⟨st, rfl, h.symm⟩

/-- The best bin count of a completed run is at least `nMin`, at least 2,
and (when the candidate range is non-empty) below `nMax`. -/
theorem optimizeRun_bestN (data : List ℚ) (cF : List ℕ → List ℚ → Option Flt)
    (minimize : Bool) (patience : ℕ) (st : SearchState)
    (h : optimizeRun data cF minimize patience = some st) :
    2 ≤ st.bestN ∧ nMin data.length ≤ st.bestN ∧
      (nMin data.length < nMax data.length → st.bestN < nMax data.length) := by
  have h1 : 2 ≤ st.bestN ∧ nMin data.length ≤ st.bestN := by
    refine optLoop_bestN_pred _ minimize patience
      (fun k => 2 ≤ k ∧ nMin data.length ≤ k) _ _ _ ?_ ?_ h
    · intro k hk
      have := List.mem_range'_1.mp hk
      have h2 : 2 ≤ nMin data.length := le_max_left 2 _
      omega
    · exact ⟨le_max_left 2 _, le_refl _⟩
  refine ⟨h1.1, h1.2, fun hlt => ?_⟩
  refine optLoop_bestN_pred _ minimize patience
    (fun k => k < nMax data.length) _ _ _ ?_ hlt h
  intro k hk
  have := List.mem_range'_1.mp hk
  omega

/-- C4: in `optimize_bins`, a candidate whose cost evaluates to NaN never
updates `best_cost`/`best_n`, never resets `worse_count`, and always
increments `worse_count`, breaking exactly when the incremented counter
reaches `patience` — for both `minimize = true` and `minimize = false`
(IEEE comparisons with NaN are always false, so both the best-update and
the not-worse branch are skipped). -/
theorem optStep_nan_counts_as_worse (minimize : Bool) (patience : ℕ)
    (st : SearchState) (k : ℕ) :
    (optStep minimize patience st Flt.nan k).1.bestCost = st.bestCost ∧
    (optStep minimize patience st Flt.nan k).1.bestN = st.bestN ∧
    (optStep minimize patience st Flt.nan k).1.worseCount = st.worseCount + 1 ∧
    (optStep minimize patience st Flt.nan k).2
      = decide (patience ≤ st.worseCount + 1) := by
  have h1 : better minimize Flt.nan st.bestCost = false := by
    cases minimize <;> simp [better, Flt.lt_nan_left, Flt.lt_nan_right]
  have h2 : better minimize Flt.nan st.lastCost = false := by
    cases minimize <;> simp [better, Flt.lt_nan_left, Flt.lt_nan_right]
  unfold optStep
  rw [h1, h2]
  simp

/-- C2: for every sample with min < max and every patience of at least 1,
if the cost evaluation yields a finite (non-NaN, non-infinite) value at
every candidate bin count, the scan of `optimize_bins` never triggers the
early stop, in either direction: the run completes the whole candidate
range with `worseCount = 0` and `stoppedEarly = false` (so the
end-of-range warning of the for/else is emitted). -/
theorem optimize_bins_never_stops_early (data : List ℚ)
    (cF : List ℕ → List ℚ → Option Flt) (minimize : Bool) (patience : ℕ)
    (a b : ℚ) (hmin : data.min? = some a) (hmax : data.max? = some b)
    (hab : a < b) (hp : 1 ≤ patience)
    (hf : ∀ k, nMin data.length ≤ k → k < nMax data.length →
      ∃ q, costAt data cF k = some (Flt.fin q)) :
    ∃ st, optimizeRun data cF minimize patience = some st ∧
      st.stoppedEarly = false ∧ st.worseCount = 0 := by
  unfold optimizeRun
  apply optLoop_all_finite
  · rfl
  · rfl
  · rfl
  · intro k hk
    have hm := List.mem_range'_1.mp hk
    exact hf k hm.1 (by omega)

theorem optimize_bins_never_stops_early_witness :
    ∃ st, optimizeRun [0, 1] (fun _ _ => some (Flt.fin 0)) true 10 = some st ∧
      st.stoppedEarly = false ∧ st.worseCount = 0 :=
  optimize_bins_never_stops_early [0, 1] (fun _ _ => some (Flt.fin 0)) true 10 0 1
    (by with_unfolding_all rfl) (by with_unfolding_all rfl) (by norm_num)
    (by norm_num) (fun k _ _ => ⟨0, by with_unfolding_all rfl⟩)

/-- C3: whenever `optimize_bins` returns edges (sample with min < max,
non-empty candidate range), the returned bin count `len(edges) - 1` lies
within `[nMin, nMax)` for the sample length, where `nMin n = max 2
(floor(sqrt n / 10))` and `nMax n = floor(sqrt(100 n)) = floor(10 sqrt n)`
embed `max(2, int(sqrt(n)*0.1))` and `int(sqrt(n)*10)`. -/
theorem optimize_bins_count_within_range (data : List ℚ)
    (cF : List ℕ → List ℚ → Option Flt) (minimize : Bool) (patience : ℕ)
    (edges : List ℚ) (a b : ℚ)
    (hmin : data.min? = some a) (hmax : data.max? = some b) (hab : a < b)
    (hrange : nMin data.length < nMax data.length)
    (h : optimize_bins data cF minimize patience = some edges) :
    nMin data.length ≤ edges.length - 1 ∧ edges.length - 1 < nMax data.length := by
  obtain ⟨st, hrun, rfl⟩ :=
    optimize_bins_extract data cF minimize patience edges a b hmin hmax h
  have hb := optimizeRun_bestN data cF minimize patience st hrun
  rw [linspace_length]
  simpa using ⟨hb.2.1, hb.2.2 hrange⟩

theorem optimize_bins_count_within_range_witness :
    nMin ([0, 1] : List ℚ).length ≤ ([0, 1/2, 1] : List ℚ).length - 1 ∧
      ([0, 1/2, 1] : List ℚ).length - 1 < nMax ([0, 1] : List ℚ).length :=
  optimize_bins_count_within_range [0, 1] (fun _ _ => some (Flt.fin 0)) true 10
    [0, 1/2, 1] 0 1 (by with_unfolding_all rfl) (by with_unfolding_all rfl)
    (by norm_num) (by with_unfolding_all decide) (by with_unfolding_all decide)

/-- C9: whenever `optimize_bins` returns edges for a sample with
min < max, the edges are exactly `np.linspace(min, max, k + 1)` for
`k = len(edges) - 1` bins: strictly increasing, first edge = min,
last edge = max, equal spacing `(max - min) / k`. -/
theorem optimize_bins_edges_equal_width (data : List ℚ)
    (cF : List ℕ → List ℚ → Option Flt) (minimize : Bool) (patience : ℕ)
    (edges : List ℚ) (a b : ℚ)
    (hmin : data.min? = some a) (hmax : data.max? = some b) (hab : a < b)
    (h : optimize_bins data cF minimize patience = some edges) :
    edges = linspace a b (edges.length - 1) ∧
    List.Pairwise (· < ·) edges ∧
    edges.head? = some a ∧
    edges.getLast? = some b ∧
    (∀ i, i + 1 < edges.length →
      edges.getD (i + 1) 0 - edges.getD i 0 = (b - a) / ((edges.length - 1 : ℕ) : ℚ)) := by
  obtain ⟨st, hrun, rfl⟩ :=
    optimize_bins_extract data cF minimize patience edges a b hmin hmax h
  have hb := optimizeRun_bestN data cF minimize patience st hrun
  have hk : 1 ≤ st.bestN := by omega
  have hlen : (linspace a b st.bestN).length - 1 = st.bestN := by
    rw [linspace_length]
    omega
  rw [hlen]
  refine ⟨rfl, linspace_sorted a b st.bestN hab hk, linspace_head a b st.bestN,
    linspace_last a b st.bestN hk, ?_⟩
  intro i hi
  rw [linspace_length] at hi
  rw [linspace_getD a b st.bestN (i + 1) (by omega), linspace_getD a b st.bestN i (by omega)]
  push_cast
  ring

theorem bindConstNone {α β : Type} (o : Option α) :
    (o.bind fun _ => (none : Option β)) = none := by cases o <;> rfl

/-- The `loggamma(hist + 0.5)` call of `knuth_cost` receives the numpy
array `hist + 0.5`; `math.lgamma` converts with `float(...)`, which raises
TypeError on arrays of size at least 2, so `knuth_cost` raises on every
histogram with at least two bins. -/
theorem knuthCost_none_of_two_le (logQ lgQ : ℚ → ℚ) (hist : List ℕ)
    (bins : List ℚ) (h2 : 2 ≤ hist.length) :
    knuthCost logQ lgQ hist bins = none := by
  rcases hist with _ | ⟨a, _ | ⟨b, t⟩⟩
  · simp only [List.length_nil] at h2; omega
  · simp only [List.length_singleton] at h2; omega
  · simp only [knuthCost, List.map_cons]
    have harr : mathLgammaArr lgQ
        (((a : ℚ) + 1 / 2) :: ((b : ℚ) + 1 / 2) :: t.map (fun c : ℕ => (c : ℚ) + 1 / 2))
        = none := rfl
    rw [harr]
    simp [bindConstNone]

/-- C5: claimed equality of `knuth_cost` with the Knuth log-evidence
formula; in fact the code raises TypeError for every histogram with at
least two bins, because `math.lgamma` is applied to the numpy array
`hist + 0.5` and the array-to-float conversion fails for size >= 2. -/
theorem knuthCost_raises_on_multibin_histogram (logQ lgQ : ℚ → ℚ)
    (hist : List ℕ) (bins : List ℚ) (h2 : 2 ≤ hist.length) :
    knuthCost logQ lgQ hist bins = none :=
  knuthCost_none_of_two_le logQ lgQ hist bins h2

theorem knuthCost_raises_on_multibin_histogram_witness :
    2 ≤ ([1, 1] : List ℕ).length ∧
      knuthCost constZero constZero [1, 1] [0, 1/2, 1] = none :=
  ⟨by norm_num,
    knuthCost_raises_on_multibin_histogram constZero constZero [1, 1] [0, 1/2, 1]
      (by norm_num)⟩

/-- C10: `knuth_cost` is invariant under permutation of the histogram bins
(as embedded, with a raised exception modelled as `none`): permutations
preserve the sum and the length, the two quantities the formula reads, and
for histograms of length at least 2 both sides raise the same TypeError;
a singleton or empty histogram is equal to all its permutations. -/
theorem knuthCost_perm_invariant (logQ lgQ : ℚ → ℚ) (bins : List ℚ)
    (h1 h2 : List ℕ) (hp : h1.Perm h2) :
    knuthCost logQ lgQ h1 bins = knuthCost logQ lgQ h2 bins := by
  rcases h1 with _ | ⟨a, _ | ⟨b, t⟩⟩
  · obtain rfl : h2 = [] := hp.symm.eq_nil
    rfl
  · obtain rfl : h2 = [a] := (List.singleton_perm.mp hp).symm
    rfl
  · have hl : 2 ≤ (a :: b :: t).length := by simp
    rw [knuthCost_none_of_two_le logQ lgQ _ bins hl,
      knuthCost_none_of_two_le logQ lgQ h2 bins (hp.length_eq ▸ hl)]

theorem knuthCost_perm_invariant_witness :
    ([1, 2] : List ℕ).Perm [2, 1] ∧
      knuthCost constZero constZero [1, 2] [0, 1/2, 1]
        = knuthCost constZero constZero [2, 1] [0, 1/2, 1] :=
  ⟨List.Perm.swap 2 1 [], knuthCost_perm_invariant constZero constZero [0, 1/2, 1]
    [1, 2] [2, 1] (List.Perm.swap 2 1 [])⟩

theorem nzLogSum_cons (logQ : ℚ → ℚ) (c : ℕ) (t : List ℕ) :
    nzLogSum logQ (c :: t)
      = (if 0 < c then (c : ℚ) * logQ (c : ℚ) else 0) + nzLogSum logQ t := by
  simp [nzLogSum]

theorem fltSum_cons (x : Flt) (l : List Flt) :
    fltSum (x :: l) = x.add (fltSum l) := rfl

/-- The summation term shared by `aic_cost` and `bic_cost`
(`np.sum(nonzero_hist * np.log(nonzero_hist))`) is finite and equals the
spec's sum over nonzero bins. -/
theorem fltSum_nonzero (logQ : ℚ → ℚ) (hist : List ℕ) :
    fltSum ((hist.filter (fun c => decide (0 < c))).map
      (fun c : ℕ => (Flt.fin (c : ℚ)).mul (npLog logQ (Flt.fin (c : ℚ)))))
      = Flt.fin (nzLogSum logQ hist) := by
  induction hist with
  | nil => rfl
  | cons c t ih =>
    by_cases hc : 0 < c
    · rw [List.filter_cons_of_pos (by simpa using hc), List.map_cons, fltSum_cons,
        ih, nzLogSum_cons, if_pos hc]
      have h0 : ¬ ((c : ℚ) < 0) := not_lt.mpr (Nat.cast_nonneg c)
      have h1 : ¬ ((c : ℚ) = 0) := by exact_mod_cast hc.ne'
      simp only [npLog]
      rw [if_neg h0, if_neg h1]
      rfl
    · rw [List.filter_cons_of_neg (by simpa using hc), ih, nzLogSum_cons,
        if_neg hc, zero_add]

/-- C6: for every histogram and bin width `h = edges[1] - edges[0] > 0`
with a positive total count, `aic_cost` equals the spec formula
`m + n ln n + n ln h - sum over nonzero bins of hist_i ln hist_i` and
`bic_cost` equals the same with penalty `(ln n / 2) m` in place of `m`
(zero-count bins excluded from the sum, still counted in `m`). -/
theorem aic_bic_match_spec_formulas (logQ : ℚ → ℚ) (hist : List ℕ)
    (e0 e1 : ℚ) (rest : List ℚ) (hn : 1 ≤ hist.sum) (hh : 0 < e1 - e0) :
    aicCost logQ hist (e0 :: e1 :: rest)
      = some (Flt.fin (aicFormula logQ hist (e1 - e0))) ∧
    bicCost logQ hist (e0 :: e1 :: rest)
      = some (Flt.fin (bicFormula logQ hist (e1 - e0))) := by
  have h0 : ¬ ((hist.sum : ℚ) < 0) := not_lt.mpr (Nat.cast_nonneg _)
  have h1 : ¬ ((hist.sum : ℚ) = 0) := by
    have : hist.sum ≠ 0 := by omega
    exact_mod_cast this
  have hlogn : npLog logQ (Flt.fin (hist.sum : ℚ)) = Flt.fin (logQ (hist.sum : ℚ)) := by
    simp only [npLog]
    rw [if_neg h0, if_neg h1]
  have hlogh : npLog logQ (Flt.fin (e1 - e0)) = Flt.fin (logQ (e1 - e0)) := by
    simp only [npLog]
    rw [if_neg (not_lt.mpr hh.le), if_neg hh.ne']
  constructor
  · simp only [aicCost, List.get?, Option.some_bind]
    rw [fltSum_nonzero, hlogn, hlogh]
    simp only [Flt.mul, Flt.add, Flt.sub, Flt.neg, Option.some.injEq, Flt.fin.injEq]
    rw [aicFormula]
    ring
  · simp only [bicCost, List.get?, Option.some_bind]
    rw [fltSum_nonzero, hlogn, hlogh]
    have hdiv : (Flt.fin (logQ (hist.sum : ℚ))).div (Flt.fin 2)
        = Flt.fin (logQ (hist.sum : ℚ) / 2) := by
      simp [Flt.div]
    rw [hdiv]
    simp only [Flt.mul, Flt.add, Flt.sub, Flt.neg, Option.some.injEq, Flt.fin.injEq]
    rw [bicFormula]
    ring

theorem aic_bic_match_spec_formulas_witness :
    1 ≤ ([1] : List ℕ).sum ∧ 0 < (1 : ℚ) - 0 ∧
      aicCost constZero [1] [0, 1]
        = some (Flt.fin (aicFormula constZero [1] ((1 : ℚ) - 0))) ∧
      bicCost constZero [1] [0, 1]
        = some (Flt.fin (bicFormula constZero [1] ((1 : ℚ) - 0))) :=
  ⟨by norm_num, by norm_num,
    (aic_bic_match_spec_formulas constZero [1] 0 1 [] (by norm_num) (by norm_num)).1,
    (aic_bic_match_spec_formulas constZero [1] 0 1 [] (by norm_num) (by norm_num)).2⟩

/-- C7: on the all-zero two-bin histogram with valid strictly increasing
edges, `shimazaki_cost`, `aic_cost` and `bic_cost` return NaN without
raising, but `knuth_cost` raises TypeError (`math.lgamma` applied to the
numpy array `hist + 0.5` of size 2), contradicting the claim that all four
return a defined value. -/
theorem cost_functions_on_all_zero_histogram (logQ lgQ : ℚ → ℚ) :
    knuthCost logQ lgQ [0, 0] [0, 1/2, 1] = none ∧
    shimazakiCost [0, 0] [0, 1/2, 1] = some Flt.nan ∧
    aicCost logQ [0, 0] [0, 1/2, 1] = some Flt.nan ∧
    bicCost logQ [0, 0] [0, 1/2, 1] = some Flt.nan := by
  refine ⟨knuthCost_none_of_two_le logQ lgQ _ _ (by norm_num), ?_, ?_, ?_⟩
  · with_unfolding_all decide
  · norm_num [aicCost, List.get?, npLog, Flt.mul, Flt.add, Flt.sub, Flt.neg,
      fltSum, List.filter]
  · norm_num [bicCost, List.get?, npLog, Flt.mul, Flt.add, Flt.sub, Flt.neg,
      Flt.div, fltSum, List.filter]

/-- C1: the claim says the loop sets `last_cost` to each candidate's cost
so that the not-worse relaxation compares against the immediately
preceding candidate; the source never assigns `last_cost`, which therefore
stays at its initial infinity.  On the sample [0, 1] with patience 1,
minimizing a cost of 3, 5, 1, 1, ... at bin counts 2, 3, 4, ...: the code
resets `worse_count` at bin count 3 (5 < inf) and reaches the better
bin count 4, returning 5 edges, while the spec's loop (step g included)
stops at bin count 3 (5 is not below `last_cost` = 3) and returns the
3 edges for `best_n` = 2; the final `lastCost` of the code's run is still
the initial +inf. -/
theorem optimize_bins_never_updates_last_cost :
    optimize_bins [0, 1] c1CostFn true 1 = some [0, 1/4, 1/2, 3/4, 1] ∧
    optimize_bins_specG [0, 1] c1CostFn true 1 = some [0, 1/2, 1] ∧
    (optimizeRun [0, 1] c1CostFn true 1).map SearchState.lastCost
      = some Flt.inf := by
  refine ⟨?_, ?_, ?_⟩ <;> with_unfolding_all decide

/-- C8 counterexample: on the identical-value sample [5, 5] (min = max),
`aic_bins` does not raise any failure condition: it returns the zero-width
edges [5, 5, 5]. -/
theorem aic_bins_identical_sample_no_failure :
    aic_bins constZero [5, 5] = some [5, 5, 5] := by
  with_unfolding_all decide

/-- C8 amended: on a sample of identical values (min = max), the source
rule functions raise no input-validation failure: `aic_bins`,
`shimazaki_bins` and `bic_bins` return zero-width edges (all equal to the
common value), and `knuth_bins` raises only the TypeError of the
lgamma-on-array slip in `knuth_cost`, unrelated to input validity. -/
theorem rule_functions_identical_sample_zero_width :
    aic_bins constZero [5, 5] = some [5, 5, 5] ∧
    shimazaki_bins [5, 5] = some [5, 5, 5] ∧
    bic_bins constZero [5, 5] = some [5, 5, 5] ∧
    knuth_bins constZero constZero [5, 5] = none := by
  refine ⟨?_, ?_, ?_, ?_⟩ <;> with_unfolding_all decide

theorem optimize_bins_edges_equal_width_witness :
    ([0, 1/2, 1] : List ℚ) = linspace 0 1 (([0, 1/2, 1] : List ℚ).length - 1) ∧
    List.Pairwise (· < ·) ([0, 1/2, 1] : List ℚ) ∧
    ([0, 1/2, 1] : List ℚ).head? = some 0 ∧
    ([0, 1/2, 1] : List ℚ).getLast? = some 1 ∧
    (∀ i, i + 1 < ([0, 1/2, 1] : List ℚ).length →
      ([0, 1/2, 1] : List ℚ).getD (i + 1) 0 - ([0, 1/2, 1] : List ℚ).getD i 0
        = (1 - 0) / ((([0, 1/2, 1] : List ℚ).length - 1 : ℕ) : ℚ)) :=
  optimize_bins_edges_equal_width [0, 1] (fun _ _ => some (Flt.fin 0)) true 10
    [0, 1/2, 1] 0 1 (by with_unfolding_all rfl) (by with_unfolding_all rfl)
    (by norm_num) (by with_unfolding_all decide)
